import Mathlib

/-!
Verification of the nmslib JNI wrapper (jni/src/nmslib_wrapper.cpp).

Modelling conventions.

Raw 32-bit float payloads are modelled by integers.  The wrapper observes a
float value only through the test x != 0.0f and through raw copying, so any
value domain with a decidable equality and a distinguished zero is a faithful
abstraction of the float payloads; IEEE +0.0 and -0.0 both map to 0.

The pinned float buffer returned by GetFloatArrayElements is a list of 4-byte
cells.  The sparse and bitset encoders overwrite cells of this buffer in
place, reinterpreting them through an int32 / uint32 view.  Reading a cell
through the wrong view (a float read of a cell last written through the
integer view), or any out-of-bounds access, has no portable meaning in the
source, so the model turns such an access into a failure; the safety theorems
prove that these failures never occur on the real control paths.

32-bit machine integers are modelled by Nat, with overflow written explicitly
as % 2 ^ 32 where the source casts (uint32_t(dim)).  The loop index shift
computation i & 31 of the source equals i % 32, and word = i / 32; the model
uses the / and % forms.

External nmslib objects (spaces, hnsw indexes, Object entries, the KNNQueue)
are opaque to this layer; where a claim depends on their behaviour they are
modelled from the spec, with a doc comment saying so.  Failures of external
calls (index construction, index saving, index loading, query-time parameter
application, query Object construction) are fault oracles passed as Bool
arguments.
-/

namespace NmslibWrapper

/-- One 4-byte cell of a pinned float buffer.  flt is an untouched float
payload; i32 is a cell overwritten through the int32 / uint32 view by the
in-place encoders of the source. -/
inductive Cell where
  | flt (x : Int)
  | i32 (n : Nat)
deriving DecidableEq, Repr

/-- Float view read of a buffer cell, floatArrayCpp[i] in the source.  An out
of bounds access, or a read of a cell last written through the integer view,
yields none. -/
def readFlt (buf : List Cell) (i : Nat) : Option Int :=
  match buf[i]? with
  | some (Cell.flt x) => some x
  | _ => none

/-- Integer view read of a buffer cell, bitArray[i] in the source. -/
def readI32 (buf : List Cell) (i : Nat) : Option Nat :=
  match buf[i]? with
  | some (Cell.i32 n) => some n
  | _ => none

/-- Bounds-checked store to a buffer cell; none models a write past the
extent of the pinned buffer. -/
def writeCell (buf : List Cell) (i : Nat) (c : Cell) : Option (List Cell) :=
  if i < buf.length then some (buf.set i c) else none

/-- The jaccard_sparse in-place encoding loop of CreateIndex, source lines
117-123: for i in [0, dim), if floatArrayCpp[i] != 0.0f then write the int32
value i at offset numElems of the same buffer and increment numElems.  The
first argument is the number of remaining iterations, the second the current
index i. -/
def sparseLoopB : Nat → Nat → List Cell → Nat → Option (List Cell × Nat)
  | 0, _, buf, numElems => some (buf, numElems)
  | n + 1, i, buf, numElems =>
    match readFlt buf i with
    | none => none
    | some x =>
      if x ≠ 0 then
        match writeCell buf numElems (Cell.i32 i) with
        | none => none
        | some buf2 => sparseLoopB n (i + 1) buf2 (numElems + 1)
      else sparseLoopB n (i + 1) buf numElems

/-- The jaccard_sparse in-place encoding loop of QueryIndex, source lines
229-235.  The source text of this loop is identical to the one in
CreateIndex; it is translated separately because the refinement claim
compares the two code paths. -/
def sparseLoopQ : Nat → Nat → List Cell → Nat → Option (List Cell × Nat)
  | 0, _, buf, numElems => some (buf, numElems)
  | n + 1, i, buf, numElems =>
    match readFlt buf i with
    | none => none
    | some x =>
      if x ≠ 0 then
        match writeCell buf numElems (Cell.i32 i) with
        | none => none
        | some buf2 => sparseLoopQ n (i + 1) buf2 (numElems + 1)
      else sparseLoopQ n (i + 1) buf numElems

/-- The bit_jaccard in-place packing loop of CreateIndex, source lines
128-141: read elem = floatArrayCpp[i]; word = i / 32; shift = i & 31;
when shift == 0 zero the word cell through the uint32 view and increment
numElems; when elem != 0.0f set bit shift of the word cell. -/
def bitLoopB : Nat → Nat → List Cell → Nat → Option (List Cell × Nat)
  | 0, _, buf, numElems => some (buf, numElems)
  | n + 1, i, buf, numElems =>
    match readFlt buf i with
    | none => none
    | some elem =>
      match (if i % 32 = 0 then
              Option.map (fun b => (b, numElems + 1)) (writeCell buf (i / 32) (Cell.i32 0))
             else some (buf, numElems)) with
      | none => none
      | some (buf1, numElems1) =>
        if elem ≠ 0 then
          match readI32 buf1 (i / 32) with
          | none => none
          | some cur =>
            match writeCell buf1 (i / 32) (Cell.i32 (cur ||| 1 <<< (i % 32))) with
            | none => none
            | some buf2 => bitLoopB n (i + 1) buf2 numElems1
        else bitLoopB n (i + 1) buf1 numElems1

/-- The bit_jaccard in-place packing loop of QueryIndex, source lines
240-253; the source text is identical to the CreateIndex loop. -/
def bitLoopQ : Nat → Nat → List Cell → Nat → Option (List Cell × Nat)
  | 0, _, buf, numElems => some (buf, numElems)
  | n + 1, i, buf, numElems =>
    match readFlt buf i with
    | none => none
    | some elem =>
      match (if i % 32 = 0 then
              Option.map (fun b => (b, numElems + 1)) (writeCell buf (i / 32) (Cell.i32 0))
             else some (buf, numElems)) with
      | none => none
      | some (buf1, numElems1) =>
        if elem ≠ 0 then
          match readI32 buf1 (i / 32) with
          | none => none
          | some cur =>
            match writeCell buf1 (i / 32) (Cell.i32 (cur ||| 1 <<< (i % 32))) with
            | none => none
            | some buf2 => bitLoopQ n (i + 1) buf2 numElems1
        else bitLoopQ n (i + 1) buf1 numElems1

/-- Failure modes of a per-vector encode.  dimLt2 is the runtime_error
"Dimension of vectors for bit_jaccard must be > 1!" thrown at source lines
126 and 238; memUnsafe is the model-level failure standing for an access
outside the pinned buffer or a read through the wrong view (it never occurs,
as proved below). -/
inductive EncErr where
  | dimLt2
  | memUnsafe
deriving DecidableEq, Repr

/-- The build-time per-vector encoding of CreateIndex, source lines 115-143:
numElems starts as dim; the jaccard_sparse and bit_jaccard branches rewrite
the pinned buffer in place and recompute numElems; every other space type
keeps the raw floats and numElems = dim.  The trailing store
bitArray[numElems++] = uint32_t(dim) of line 142 is the % 2 ^ 32 write. -/
def encodeVectorB (spaceType : String) (v : List Int) : Except EncErr (List Cell × Nat) :=
  if spaceType = "jaccard_sparse" then
    match sparseLoopB v.length 0 (v.map Cell.flt) 0 with
    | none => .error .memUnsafe
    | some (buf, numElems) => .ok (buf, numElems)
  else if spaceType = "bit_jaccard" then
    if v.length < 2 then .error .dimLt2
    else
      match bitLoopB v.length 0 (v.map Cell.flt) 0 with
      | none => .error .memUnsafe
      | some (buf, numElems) =>
        match writeCell buf numElems (Cell.i32 (v.length % 2 ^ 32)) with
        | none => .error .memUnsafe
        | some buf2 => .ok (buf2, numElems + 1)
  else .ok (v.map Cell.flt, v.length)

/-- The query-time encoding of QueryIndex, source lines 227-255, dispatching
on the StrDesc of the space held by the handle.  The source text of the two
branches is identical to the CreateIndex branches; it is translated
separately because the refinement claim compares the two code paths. -/
def encodeVectorQ (spaceDesc : String) (v : List Int) : Except EncErr (List Cell × Nat) :=
  if spaceDesc = "jaccard_sparse" then
    match sparseLoopQ v.length 0 (v.map Cell.flt) 0 with
    | none => .error .memUnsafe
    | some (buf, numElems) => .ok (buf, numElems)
  else if spaceDesc = "bit_jaccard" then
    if v.length < 2 then .error .dimLt2
    else
      match bitLoopQ v.length 0 (v.map Cell.flt) 0 with
      | none => .error .memUnsafe
      | some (buf, numElems) =>
        match writeCell buf numElems (Cell.i32 (v.length % 2 ^ 32)) with
        | none => .error .memUnsafe
        | some buf2 => .ok (buf2, numElems + 1)
  else .ok (v.map Cell.flt, v.length)

/-- The ascending list of indices at which the payload is nonzero, starting
at index base.  This is the mathematical description the sparse encoding is
proved against. -/
def nzFrom (base : Nat) : List Int → List Nat
  | [] => []
  | x :: xs => if x ≠ 0 then base :: nzFrom (base + 1) xs else nzFrom (base + 1) xs

/-- Indices of the nonzero entries of a vector, in ascending order. -/
def nzIndices (v : List Int) : List Nat := nzFrom 0 v

/-- The bit-packing invariant: word j of W holds bit s exactly when position
32 * j + s of v is below the first i positions and nonzero. -/
def bitProp (v : List Int) (i : Nat) (W : List Nat) : Prop :=
  ∀ j s : Nat, j < W.length →
    ((W.getD j 0).testBit s = true
      ↔ 32 * j + s < i ∧ s < 32 ∧ v.getD (32 * j + s) 0 ≠ 0)

/-- TranslateSpaceType, source lines 298-328.  The knn_jni space-name
constants live in jni_util.h, which is not part of the sources given here;
their values are modelled from the spec section 6 name table: l2, l1, linf,
cosinesimil, innerproduct (mapped to the negated dot product space) plus the
two jaccard names handled literally by the source. -/
def TranslateSpaceType (spaceType : String) : Except String String :=
  if spaceType = "l2" then .ok spaceType
  else if spaceType = "l1" then .ok spaceType
  else if spaceType = "linf" then .ok spaceType
  else if spaceType = "cosinesimil" then .ok spaceType
  else if spaceType = "innerproduct" then .ok "negdotprod"
  else if spaceType = "bit_jaccard" then .ok "bit_jaccard"
  else if spaceType = "jaccard_sparse" then .ok "jaccard_sparse"
  else .error "Invalid spaceType"

/-- Failure modes of CreateIndex that the model distinguishes. -/
inductive CreateErr where
  | badSpace
  | idCountMismatch
  | dimInconsistent
  | encFail (e : EncErr)
  | nativeBuild
  | nativeSave
deriving DecidableEq, Repr

/-- Result of a CreateIndex call.  entriesCreated and entriesReleased list, in
event order, the similarity Object dataset entries allocated by new at source
line 145 and released by delete at lines 155-157 or 159-161; entry i is the
entry built from vector i.  buffersAcquired and buffersReleased list, by
vector index in event order, the pinned float buffers obtained by
GetFloatArrayElements at line 113 and released by ReleaseFloatArrayElements
at line 146; the catch block of lines 158-165 releases neither of them, so a
throw between those two lines leaves its buffer acquired but unreleased.
javaIds and javaVectors are the caller-visible contents of the Java arrays
after the call: the source only ever releases its pinned copies with
JNI_ABORT (lines 146 and 148), which by JNI semantics discards native
modifications instead of copying them back. -/
structure CreateResult where
  outcome : Except CreateErr Unit
  entriesCreated : List Nat
  entriesReleased : List Nat
  buffersAcquired : List Nat
  buffersReleased : List Nat
  javaIds : List Int
  javaVectors : List (List Int)
deriving Repr

/-- Modelled from the spec: GetInnerDimensionOf2dJavaFloatArray of jni_util
(not among the given sources) returns the dimension shared by all rows,
which the spec fixes as the dimension of the first vector; on an empty
outer array the model returns 0. -/
def innerDim (vectors : List (List Int)) : Nat := (vectors.headD []).length

/-- Result of the dataset-reading loop: the dataset entries created, the
per-vector pinned float buffers acquired (GetFloatArrayElements, line 113)
and released (ReleaseFloatArrayElements with JNI_ABORT, line 146), each
listed by vector index in event order, and the error that escaped the loop
body, if any. -/
structure DatasetLoopResult where
  entries : List Nat
  buffersAcquired : List Nat
  buffersReleased : List Nat
  err : Option CreateErr
deriving Repr

/-- The dataset-reading loop of CreateIndex, source lines 106-147: for each
vector, check that its length equals dim (line 109), pin its float buffer
(GetFloatArrayElements, line 113), encode it in place, create a dataset
entry (line 145), and release the pinned buffer (line 146).  The dimension
check precedes the pin, so a dimension-inconsistency throw holds no buffer;
the bit_jaccard dimension throw of line 126 comes after the pin and escapes
with the buffer still acquired - the catch block of lines 158-165 releases
dataset entries and idsCpp only, never this buffer. -/
def datasetLoop (spaceType : String) (dim : Nat) :
    List (List Int) → Nat → List Nat → List Nat → List Nat → DatasetLoopResult
  | [], _, acc, pin, rel =>
    { entries := acc, buffersAcquired := pin, buffersReleased := rel, err := none }
  | v :: rest, i, acc, pin, rel =>
    if dim ≠ v.length then
      { entries := acc, buffersAcquired := pin, buffersReleased := rel,
        err := some .dimInconsistent }
    else
      match encodeVectorB spaceType v with
      | .error .dimLt2 =>
        { entries := acc, buffersAcquired := pin ++ [i], buffersReleased := rel,
          err := some (.encFail .dimLt2) }
      | .error .memUnsafe =>
        { entries := acc, buffersAcquired := pin ++ [i], buffersReleased := rel,
          err := some (.encFail .memUnsafe) }
      | .ok _ =>
        datasetLoop spaceType dim rest (i + 1) (acc ++ [i]) (pin ++ [i]) (rel ++ [i])

/-- The release of every dataset entry, source lines 155-157 on the success
path and 159-161 in the catch block: a range-for over the dataset deleting
each entry in creation order. -/
def deleteEntries (entries : List Nat) : List Nat :=
  entries.foldl (fun acc t => acc ++ [t]) []

/-- CreateIndex, source lines 30-166, for non-null arguments.  After
translating the space name (line 84) the source checks numIds == numVectors
(lines 90-94), takes dim from the first row (line 95; the helper
GetInnerDimensionOf2dJavaFloatArray lives in jni_util, not in the given
sources, and is modelled from the spec as the dimension of the first
vector), runs the dataset loop, and on any escape of the try block deletes
every dataset entry before rethrowing (lines 158-165); on success it deletes
them after SaveIndex (lines 155-157).  buildFail and saveFail are fault
oracles for the opaque native calls index->CreateIndex (line 152) and
index->SaveIndex (line 153); the hnsw method construction failure is folded
into buildFail.  The space and index objects themselves are owned by
unique_ptr locals and cannot leak; they are not tracked. -/
def CreateIndex (ids : List Int) (vectors : List (List Int)) (spaceTypeRaw : String)
    (buildFail saveFail : Bool) : CreateResult :=
  match TranslateSpaceType spaceTypeRaw with
  | .error _ =>
    { outcome := .error .badSpace, entriesCreated := [], entriesReleased := [],
      buffersAcquired := [], buffersReleased := [], javaIds := ids, javaVectors := vectors }
  | .ok spaceType =>
    if ids.length ≠ vectors.length then
      { outcome := .error .idCountMismatch, entriesCreated := [], entriesReleased := [],
        buffersAcquired := [], buffersReleased := [], javaIds := ids, javaVectors := vectors }
    else
      match datasetLoop spaceType (innerDim vectors) vectors 0 [] [] [] with
      | ⟨created, pin, rel, some e⟩ =>
        { outcome := .error e, entriesCreated := created,
          entriesReleased := deleteEntries created, buffersAcquired := pin,
          buffersReleased := rel, javaIds := ids, javaVectors := vectors }
      | ⟨created, pin, rel, none⟩ =>
        if buildFail then
          { outcome := .error .nativeBuild, entriesCreated := created,
            entriesReleased := deleteEntries created, buffersAcquired := pin,
            buffersReleased := rel, javaIds := ids, javaVectors := vectors }
        else if saveFail then
          { outcome := .error .nativeSave, entriesCreated := created,
            entriesReleased := deleteEntries created, buffersAcquired := pin,
            buffersReleased := rel, javaIds := ids, javaVectors := vectors }
        else
          { outcome := .ok (), entriesCreated := created,
            entriesReleased := deleteEntries created, buffersAcquired := pin,
            buffersReleased := rel, javaIds := ids, javaVectors := vectors }

/-- Failure modes of LoadIndex that the model distinguishes, one per fault
point of the handle construction: space factory, hnsw method factory,
index->LoadIndex, index->SetQueryTimeParams. -/
inductive LoadErr where
  | spaceFail
  | methodFail
  | loadFail
  | paramsFail
deriving DecidableEq, Repr

/-- Ledger of native allocations, recording creation and release events in
order. -/
structure Ledger where
  created : List String
  released : List String
deriving DecidableEq, Repr

/-- Record an allocation. -/
def Ledger.alloc (l : Ledger) (t : String) : Ledger :=
  { l with created := l.created ++ [t] }

/-- Record a release. -/
def Ledger.dealloc (l : Ledger) (t : String) : Ledger :=
  { l with released := l.released ++ [t] }

/-- Modelled from the spec: the IndexWrapper constructor declared in
nmslib_wrapper.h (not among the given sources).  It creates the metric space
object for the space type and then an hnsw index object bound to that space;
both are held in unique_ptr members declared space first, index second.  If
the space factory throws, nothing was allocated; if the method factory
throws, C++ destroys the already-constructed space member before the
exception leaves the new expression. -/
def wrapperCtor (spaceFail methodFail : Bool) (l : Ledger) : Except LoadErr Unit × Ledger :=
  if spaceFail then (.error .spaceFail, l)
  else
    let l1 := l.alloc "space"
    if methodFail then (.error .methodFail, l1.dealloc "space")
    else (.ok (), l1.alloc "index")

/-- Modelled from the spec: the IndexWrapper destructor releases the index
member first and the space member second (reverse member declaration order,
matching the spec requirement that the index never outlive the space). -/
def wrapperDtor (l : Ledger) : Ledger :=
  (l.dealloc "index").dealloc "space"

/-- Result of a LoadIndex call: outcome plus the allocation ledger. -/
structure LoadResult where
  outcome : Except LoadErr Unit
  created : List String
  released : List String
deriving Repr

/-- LoadIndex, source lines 168-208, for non-null arguments; the interesting
part is the try block of lines 198-205: construct the wrapper, load the
persisted index from the path, apply the query-time parameters; the catch
block deletes the wrapper and rethrows.  loadFail and paramsFail are fault
oracles for index->LoadIndex (line 200) and index->SetQueryTimeParams (line
201).  The local indexWrapper pointer of line 197 is declared uninitialized
in the source; when the constructor itself throws the model treats the catch
delete as a no-op, which matches the executions in which the garbage pointer
happens to be null. -/
def LoadIndex (spaceFail methodFail loadFail paramsFail : Bool) : LoadResult :=
  match wrapperCtor spaceFail methodFail { created := [], released := [] } with
  | (.error e, l) => { outcome := .error e, created := l.created, released := l.released }
  | (.ok _, l) =>
    if loadFail then
      let l2 := wrapperDtor l
      { outcome := .error .loadFail, created := l2.created, released := l2.released }
    else if paramsFail then
      let l2 := wrapperDtor l
      { outcome := .error .paramsFail, created := l2.created, released := l2.released }
    else { outcome := .ok (), created := l.created, released := l.released }

/-- Failure modes of QueryIndex that the model distinguishes. -/
inductive QueryErr where
  | encFail (e : EncErr)
  | objCtorFail
deriving DecidableEq, Repr

/-- Result of a QueryIndex call.  bufReleased records whether
ReleaseFloatArrayElements was called on the pinned query buffer acquired at
source line 225; javaQuery is the caller-visible content of the Java query
array after the call (all releases in the source use JNI_ABORT, discarding
native modifications). -/
structure QueryResultT where
  outcome : Except QueryErr (List (Int × Int))
  bufReleased : Bool
  javaQuery : List Int
deriving Repr

/-- Modelled from the spec: TopDistance of the cloned KNNQueue returns the
current maximum distance among the retained candidates.  The cloned queue is
modelled as its list of (id, distance) entries sorted in descending distance
order, so the top element is the head. -/
def topDistance (q : List (Int × Int)) : Int :=
  match q with
  | [] => 0
  | e :: _ => e.2

/-- Modelled from the spec: the id of the entry removed by Pop, which is the
current maximum-distance entry, the head of the descending list. -/
def popId (q : List (Int × Int)) : Int :=
  match q with
  | [] => 0
  | e :: _ => e.1

/-- The drain loop of QueryIndex, source lines 280-285: for i in
[0, resultSize) read distance = TopDistance, id = Pop, and store the pair at
result position i. -/
def drainLoop : Nat → List (Int × Int) → List (Int × Int)
  | 0, _ => []
  | n + 1, q => (popId q, topDistance q) :: drainLoop n q.tail

/-- QueryIndex, source lines 210-287, for a non-null query vector and a
nonzero handle.  spaceDesc is the StrDesc of the space held by the handle
(modelled from the spec: it equals the translated space name the handle was
loaded with).  queue is the content of the backend top-k queue clone of line
269, modelled from the spec as a list sorted in descending distance order and
holding at most k entries; k itself is only passed through to the opaque
backend.  objFail is the fault oracle for the query Object constructor of
line 259.  The source releases the pinned buffer inside the catch of lines
260-263 and after the try at line 264; the throw of line 238 happens outside
any try block, so on that path no release runs. -/
def QueryIndex (spaceDesc : String) (queue : List (Int × Int)) (objFail : Bool)
    (javaQuery : List Int) (k : Nat) : QueryResultT :=
  match encodeVectorQ spaceDesc javaQuery with
  | .error e =>
    { outcome := .error (.encFail e), bufReleased := false, javaQuery := javaQuery }
  | .ok _ =>
    if objFail then
      { outcome := .error .objCtorFail, bufReleased := true, javaQuery := javaQuery }
    else
      { outcome := .ok (drainLoop queue.length queue), bufReleased := true,
        javaQuery := javaQuery }

/-! List access helper lemmas used by the buffer invariants. -/

/-- Helper: index access below the length yields getD at any default. -/
theorem ge_getD {α : Type} (l : List α) (d : α) (j : Nat) (h : j < l.length) :
    l[j]? = some (l.getD j d) := by
  induction l generalizing j with
  | nil => cases h
  | cons a t ih =>
    cases j with
    | zero => simp
    | succ j => simpa using ih j (by simpa using h)

/-- Helper: index access in the left part of an append. -/
theorem ge_append_lt {α : Type} (l₁ l₂ : List α) (j : Nat) (h : j < l₁.length) :
    (l₁ ++ l₂)[j]? = l₁[j]? := by
  induction l₁ generalizing j with
  | nil => cases h
  | cons a t ih =>
    cases j with
    | zero => simp
    | succ j => simpa using ih j (by simpa using h)

/-- Helper: index access in the right part of an append. -/
theorem ge_append_ge {α : Type} (l₁ l₂ : List α) (j : Nat) (h : l₁.length ≤ j) :
    (l₁ ++ l₂)[j]? = l₂[j - l₁.length]? := by
  induction l₁ generalizing j with
  | nil => simp
  | cons a t ih =>
    cases j with
    | zero => simp at h
    | succ j =>
      have := ih j (by simpa using h)
      simpa [Nat.succ_sub_succ] using this

/-- Helper: index access commutes with map. -/
theorem ge_map {α β : Type} (f : α → β) (l : List α) (j : Nat) :
    (l.map f)[j]? = (l[j]?).map f := by
  induction l generalizing j with
  | nil => simp
  | cons a t ih =>
    cases j with
    | zero => simp
    | succ j => simpa using ih j

/-- Helper: index access into a drop. -/
theorem ge_drop {α : Type} (l : List α) (m j : Nat) :
    (l.drop m)[j]? = l[m + j]? := by
  induction m generalizing l with
  | zero => simp
  | succ m ih =>
    cases l with
    | nil => simp
    | cons a t => simpa [Nat.succ_add] using ih t

/-- Helper: getD in the left part of an append. -/
theorem getD_append_lt {α : Type} (l₁ l₂ : List α) (j : Nat) (d : α) (h : j < l₁.length) :
    (l₁ ++ l₂).getD j d = l₁.getD j d := by
  induction l₁ generalizing j with
  | nil => cases h
  | cons a t ih =>
    cases j with
    | zero => rfl
    | succ j => simpa using ih j (by simpa using h)

/-- Helper: getD at the length of the left part of an append. -/
theorem getD_append_len {α : Type} (l₁ l₂ : List α) (d : α) :
    (l₁ ++ l₂).getD l₁.length d = l₂.getD 0 d := by
  induction l₁ with
  | nil => rfl
  | cons a t ih => simpa using ih

/-- Helper: getD of set at the written index. -/
theorem getD_set_self {α : Type} (l : List α) (j : Nat) (a d : α) (h : j < l.length) :
    (l.set j a).getD j d = a := by
  induction l generalizing j with
  | nil => cases h
  | cons b t ih =>
    cases j with
    | zero => rfl
    | succ j => simpa [List.set] using ih j (by simpa using h)

/-- Helper: getD of set at another index. -/
theorem getD_set_ne {α : Type} (l : List α) (j k : Nat) (a d : α) (h : j ≠ k) :
    (l.set j a).getD k d = l.getD k d := by
  induction l generalizing j k with
  | nil => rfl
  | cons b t ih =>
    cases j with
    | zero =>
      cases k with
      | zero => exact absurd rfl h
      | succ k => rfl
    | succ j =>
      cases k with
      | zero => rfl
      | succ k => simpa [List.set] using ih j k (by omega)

/-- Helper: set inside the left part of an append. -/
theorem set_append_left {α : Type} (l₁ l₂ : List α) (k : Nat) (a : α) (h : k < l₁.length) :
    (l₁ ++ l₂).set k a = l₁.set k a ++ l₂ := by
  induction l₁ generalizing k with
  | nil => cases h
  | cons b t ih =>
    cases k with
    | zero => rfl
    | succ k => simp [List.set, ih k (by simpa using h)]

/-- Helper: set past the left part of an append. -/
theorem set_append_len {α : Type} (l₁ l₂ : List α) (k : Nat) (a : α) :
    (l₁ ++ l₂).set (l₁.length + k) a = l₁ ++ l₂.set k a := by
  induction l₁ with
  | nil => simp
  | cons b t ih => simpa [List.set, Nat.succ_add] using ih

/-- Helper: set at the junction of an append. -/
theorem set_at_len {α : Type} (l₁ l₂ : List α) (a b : α) :
    (l₁ ++ a :: l₂).set l₁.length b = l₁ ++ b :: l₂ := by
  induction l₁ with
  | nil => rfl
  | cons c t ih => simp [List.set, ih]

/-- Helper: map commutes with set. -/
theorem map_set_comm {α β : Type} (f : α → β) (l : List α) (j : Nat) (a : α) :
    (l.set j a).map f = (l.map f).set j (f a) := by
  induction l generalizing j with
  | nil => rfl
  | cons b t ih =>
    cases j with
    | zero => rfl
    | succ j => simp [List.set, ih j]

/-- Helper: a drop below the length is the element followed by the next
drop. -/
theorem drop_cons_getD {α : Type} (v : List α) (d : α) (m : Nat) (h : m < v.length) :
    v.drop m = v.getD m d :: v.drop (m + 1) := by
  induction v generalizing m with
  | nil => cases h
  | cons a t ih =>
    cases m with
    | zero => rfl
    | succ m => simpa using ih m (by simpa using h)

/-- Reading the float view at index i of an in-place encode buffer whose
first cells, fewer than i of them, have been overwritten still sees the
original vector entry: writes stayed strictly below i. -/
theorem readFlt_mixed (P : List Cell) (v : List Int) (ne i : Nat)
    (h₁ : P.length = ne) (h₂ : ne ≤ i) (h₃ : i < v.length) :
    readFlt (P ++ (v.drop ne).map Cell.flt) i = some (v.getD i 0) := by
  unfold readFlt
  rw [ge_append_ge _ _ i (by omega), h₁, ge_map, ge_drop,
    show ne + (i - ne) = i from by omega, ge_getD v 0 i h₃]
  rfl

/-! Properties of nzFrom, the mathematical description of the sparse
encoding. -/

/-- Every index produced by nzFrom is at least the base. -/
theorem nzFrom_ge (l : List Int) (b : Nat) : ∀ i ∈ nzFrom b l, b ≤ i := by
  induction l generalizing b with
  | nil => intro i h; cases h
  | cons x xs ih =>
    intro i h
    unfold nzFrom at h
    by_cases hx : x = 0
    · simp [hx] at h
      exact Nat.le_of_succ_le (ih (b + 1) i h)
    · simp [hx] at h
      rcases h with h | h
      · omega
      · exact Nat.le_of_succ_le (ih (b + 1) i h)

/-- nzFrom produces at most one index per entry. -/
theorem nzFrom_length_le (l : List Int) (b : Nat) : (nzFrom b l).length ≤ l.length := by
  induction l generalizing b with
  | nil => simp [nzFrom]
  | cons x xs ih =>
    unfold nzFrom
    by_cases hx : x = 0 <;> simp [hx]
    · exact Nat.le_succ_of_le (ih (b + 1))
    · exact ih (b + 1)

/-- The indices produced by nzFrom are strictly ascending. -/
theorem nzFrom_sorted (l : List Int) (b : Nat) :
    List.Chain' (fun a c : Nat => a < c) (nzFrom b l) := by
  induction l generalizing b with
  | nil => simp [nzFrom]
  | cons x xs ih =>
    unfold nzFrom
    by_cases hx : x = 0 <;> simp [hx]
    · exact ih (b + 1)
    · refine List.chain'_cons'.2 ⟨?_, ih (b + 1)⟩
      intro y hy
      have := nzFrom_ge xs (b + 1) y (List.mem_of_mem_head? hy)
      omega

/-- Membership characterization of nzFrom. -/
theorem nzFrom_mem (l : List Int) (b : Nat) :
    ∀ i : Nat, i ∈ nzFrom b l ↔ ∃ j : Nat, j < l.length ∧ i = b + j ∧ l.getD j 0 ≠ 0 := by
  induction l generalizing b with
  | nil => intro i; simp [nzFrom]
  | cons x xs ih =>
    intro i
    unfold nzFrom
    by_cases hx : x = 0 <;> simp [hx, ih (b + 1) i]
    · constructor
      · rintro ⟨j, hj, hij, hnz⟩
        exact ⟨j + 1, by omega, by omega, by simpa using hnz⟩
      · rintro ⟨j, hj, hij, hnz⟩
        cases j with
        | zero => simp [hx] at hnz
        | succ j => exact ⟨j, by omega, by omega, by simpa using hnz⟩
    · constructor
      · rintro (h | ⟨j, hj, hij, hnz⟩)
        · exact ⟨0, by omega, by omega, by simpa using hx⟩
        · exact ⟨j + 1, by omega, by omega, by simpa using hnz⟩
      · rintro ⟨j, hj, hij, hnz⟩
        cases j with
        | zero => exact Or.inl (by omega)
        | succ j => exact Or.inr ⟨j, by omega, by omega, by simpa using hnz⟩

/-- nzFrom over a cons, unfolded on the index. -/
theorem nzFrom_cons (b : Nat) (x : Int) (xs : List Int) :
    nzFrom b (x :: xs)
      = if x ≠ 0 then b :: nzFrom (b + 1) xs else nzFrom (b + 1) xs := rfl

/-- One step of the sparse loop on a zero entry: skip. -/
theorem sparseLoopB_step_zero (n i : Nat) (buf : List Cell) (ne : Nat) (x : Int)
    (hr : readFlt buf i = some x) (hx : x = 0) :
    sparseLoopB (n + 1) i buf ne = sparseLoopB n (i + 1) buf ne := by
  conv_lhs => unfold sparseLoopB
  rw [hr, hx]
  simp

/-- One step of the sparse loop on a nonzero entry: write the index. -/
theorem sparseLoopB_step_write (n i : Nat) (buf buf2 : List Cell) (ne : Nat) (x : Int)
    (hr : readFlt buf i = some x) (hx : x ≠ 0)
    (hw : writeCell buf ne (Cell.i32 i) = some buf2) :
    sparseLoopB (n + 1) i buf ne = sparseLoopB n (i + 1) buf2 (ne + 1) := by
  conv_lhs => unfold sparseLoopB
  rw [hr]
  simp [hx, hw]

/-- The sparse loop invariant: starting from a buffer whose first numElems
cells hold the indices already emitted and whose remaining cells still hold
the original vector entries from position numElems on, the loop terminates
without any unsafe access and produces exactly the nonzero indices of the
remaining positions. -/
theorem sparse_go (v : List Int) :
    ∀ (n i ne : Nat) (P : List Nat), i + n = v.length → ne = P.length → ne ≤ i →
    sparseLoopB n i (P.map Cell.i32 ++ (v.drop ne).map Cell.flt) ne
      = some ((P ++ nzFrom i (v.drop i)).map Cell.i32
          ++ (v.drop (ne + (nzFrom i (v.drop i)).length)).map Cell.flt,
        ne + (nzFrom i (v.drop i)).length) := by
  intro n
  induction n with
  | zero =>
    intro i ne P hin hne hle
    have hi : i = v.length := by omega
    simp [sparseLoopB, hi, nzFrom]
  | succ n ih =>
    intro i ne P hin hne hle
    have hi : i < v.length := by omega
    have hvd : v.drop i = v.getD i 0 :: v.drop (i + 1) := drop_cons_getD v 0 i hi
    have hread : readFlt (P.map Cell.i32 ++ (v.drop ne).map Cell.flt) i
        = some (v.getD i 0) := readFlt_mixed _ v ne i (by simp [hne]) hle hi
    by_cases hx : v.getD i 0 = 0
    · have hnz : nzFrom i (v.drop i) = nzFrom (i + 1) (v.drop (i + 1)) := by
        rw [hvd, nzFrom_cons, if_neg (not_not_intro hx)]
      rw [sparseLoopB_step_zero n i _ ne _ hread hx, hnz]
      exact ih (i + 1) ne P (by omega) hne (by omega)
    · have hnz : nzFrom i (v.drop i) = i :: nzFrom (i + 1) (v.drop (i + 1)) := by
        rw [hvd, nzFrom_cons, if_pos hx]
      have hw : writeCell (P.map Cell.i32 ++ (v.drop ne).map Cell.flt) ne (Cell.i32 i)
          = some ((P ++ [i]).map Cell.i32 ++ (v.drop (ne + 1)).map Cell.flt) := by
        unfold writeCell
        rw [if_pos (by simp [List.length_append, List.length_map, List.length_drop]; omega)]
        congr 1
        rw [drop_cons_getD v 0 ne (by omega), List.map_cons,
          show ne = (List.map Cell.i32 P).length from by simp [hne], set_at_len]
        simp
      rw [sparseLoopB_step_write n i _ _ ne _ hread hx hw, hnz]
      have hmain := ih (i + 1) (ne + 1) (P ++ [i]) (by omega) (by simp [hne]) (by omega)
      rw [hmain]
      have h2 : ne + 1 + (nzFrom (i + 1) (v.drop (i + 1))).length
          = ne + ((nzFrom (i + 1) (v.drop (i + 1))).length + 1) := by omega
      simp [List.append_assoc, h2, List.length_cons]

/-- One step of the bit loop at a word boundary on a zero entry: zero the
fresh word and move on. -/
theorem bitLoopB_step_s0_zero (n i : Nat) (buf buf1 : List Cell) (ne : Nat) (x : Int)
    (hs : i % 32 = 0) (hr : readFlt buf i = some x) (hx : x = 0)
    (hw0 : writeCell buf (i / 32) (Cell.i32 0) = some buf1) :
    bitLoopB (n + 1) i buf ne = bitLoopB n (i + 1) buf1 (ne + 1) := by
  conv_lhs => unfold bitLoopB
  rw [hr, if_pos hs, hw0, hx]
  simp

/-- One step of the bit loop at a word boundary on a nonzero entry: zero the
fresh word, then set its lowest bit. -/
theorem bitLoopB_step_s0_nz (n i : Nat) (buf buf1 buf2 : List Cell) (ne cur : Nat) (x : Int)
    (hs : i % 32 = 0) (hr : readFlt buf i = some x) (hx : x ≠ 0)
    (hw0 : writeCell buf (i / 32) (Cell.i32 0) = some buf1)
    (hrc : readI32 buf1 (i / 32) = some cur)
    (hw : writeCell buf1 (i / 32) (Cell.i32 (cur ||| 1 <<< (i % 32))) = some buf2) :
    bitLoopB (n + 1) i buf ne = bitLoopB n (i + 1) buf2 (ne + 1) := by
  conv_lhs => unfold bitLoopB
  rw [hr, if_pos hs, hw0]
  simp [hx, hrc, hw]

/-- One step of the bit loop inside a word on a zero entry: nothing
changes. -/
theorem bitLoopB_step_sn_zero (n i : Nat) (buf : List Cell) (ne : Nat) (x : Int)
    (hs : i % 32 ≠ 0) (hr : readFlt buf i = some x) (hx : x = 0) :
    bitLoopB (n + 1) i buf ne = bitLoopB n (i + 1) buf ne := by
  conv_lhs => unfold bitLoopB
  rw [hr, if_neg hs, hx]
  simp

/-- One step of the bit loop inside a word on a nonzero entry: set the bit in
the current word. -/
theorem bitLoopB_step_sn_nz (n i : Nat) (buf buf2 : List Cell) (ne cur : Nat) (x : Int)
    (hs : i % 32 ≠ 0) (hr : readFlt buf i = some x) (hx : x ≠ 0)
    (hrc : readI32 buf (i / 32) = some cur)
    (hw : writeCell buf (i / 32) (Cell.i32 (cur ||| 1 <<< (i % 32))) = some buf2) :
    bitLoopB (n + 1) i buf ne = bitLoopB n (i + 1) buf2 ne := by
  conv_lhs => unfold bitLoopB
  rw [hr, if_neg hs]
  simp [hx, hrc, hw]

/-- Appending a fresh word carrying exactly the bit for position i preserves
the packing invariant across that position. -/
theorem bitProp_snoc (v : List Int) (i : Nat) (W : List Nat) (a : Nat)
    (hmod : i % 32 = 0) (hlen : W.length = i / 32) (hP : bitProp v i W)
    (ha : ∀ t : Nat, a.testBit t = true ↔ t = 0 ∧ v.getD i 0 ≠ 0) :
    bitProp v (i + 1) (W ++ [a]) := by
  intro j s hj
  simp only [List.length_append, List.length_cons, List.length_nil] at hj
  by_cases hjW : j < W.length
  · rw [getD_append_lt _ _ _ _ hjW, hP j s hjW]
    constructor
    · rintro ⟨h1, h2, h3⟩
      exact ⟨by omega, h2, h3⟩
    · rintro ⟨h1, h2, h3⟩
      exact ⟨by omega, h2, h3⟩
  · have hjw : j = W.length := by omega
    subst hjw
    rw [getD_append_len, List.getD_cons_zero, ha s]
    constructor
    · rintro ⟨h1, h2⟩
      subst h1
      have he : 32 * W.length + 0 = i := by omega
      rw [he]
      exact ⟨by omega, by omega, h2⟩
    · rintro ⟨h1, h2, h3⟩
      have hs0 : s = 0 := by omega
      subst hs0
      have he : 32 * W.length + 0 = i := by omega
      rw [he] at h3
      exact ⟨rfl, h3⟩

/-- Skipping a zero entry preserves the packing invariant across that
position. -/
theorem bitProp_keep (v : List Int) (i : Nat) (W : List Nat)
    (hP : bitProp v i W) (hx : v.getD i 0 = 0) :
    bitProp v (i + 1) W := by
  intro j s hj
  rw [hP j s hj]
  constructor
  · rintro ⟨h1, h2, h3⟩
    exact ⟨by omega, h2, h3⟩
  · rintro ⟨h1, h2, h3⟩
    refine ⟨?_, h2, h3⟩
    by_cases heq : 32 * j + s = i
    · rw [heq] at h3
      exact absurd hx h3
    · omega

/-- Setting the bit of the current nonzero position in the current word
preserves the packing invariant across that position. -/
theorem bitProp_or (v : List Int) (i : Nat) (W : List Nat)
    (hlen : W.length = i / 32 + 1) (hP : bitProp v i W) (hx : v.getD i 0 ≠ 0) :
    bitProp v (i + 1) (W.set (i / 32) ((W.getD (i / 32) 0) ||| 1 <<< (i % 32))) := by
  intro j s hj
  rw [List.length_set] at hj
  by_cases hjq : j = i / 32
  · subst hjq
    rw [getD_set_self _ _ _ _ (by omega), Nat.one_shiftLeft, Nat.testBit_lor,
      Bool.or_eq_true]
    constructor
    · rintro (h | h)
      · have hold := (hP (i / 32) s (by omega)).1 h
        exact ⟨by omega, hold.2.1, hold.2.2⟩
      · have hse : i % 32 = s := by
          by_contra hne2
          rw [Nat.testBit_two_pow_of_ne hne2] at h
          exact Bool.false_ne_true h
        refine ⟨by omega, by omega, ?_⟩
        have he : 32 * (i / 32) + s = i := by omega
        rw [he]
        exact hx
    · rintro ⟨h1, h2, h3⟩
      by_cases hse : s = i % 32
      · right
        subst hse
        exact Nat.testBit_two_pow_self
      · left
        have hne3 : 32 * (i / 32) + s ≠ i := by omega
        exact (hP (i / 32) s (by omega)).2 ⟨by omega, h2, h3⟩
  · rw [getD_set_ne _ _ _ _ _ (fun he => hjq he.symm), hP j s (by omega)]
    constructor
    · rintro ⟨h1, h2, h3⟩
      exact ⟨by omega, h2, h3⟩
    · rintro ⟨h1, h2, h3⟩
      exact ⟨by omega, h2, h3⟩

/-- The bit loop invariant: starting after i positions with the packed words
so far in the integer cells and the untouched suffix of the vector after
them, the loop terminates without any unsafe access, leaving ceil(dim / 32)
packed words whose bits record exactly the nonzero pattern of the vector. -/
theorem bit_go (v : List Int) :
    ∀ n i : Nat, ∀ W : List Nat, i + n = v.length → W.length = (i + 31) / 32 →
    bitProp v i W →
    ∃ Wf : List Nat,
      bitLoopB n i (W.map Cell.i32 ++ (v.drop ((i + 31) / 32)).map Cell.flt) ((i + 31) / 32)
        = some (Wf.map Cell.i32 ++ (v.drop ((v.length + 31) / 32)).map Cell.flt,
            (v.length + 31) / 32)
      ∧ Wf.length = (v.length + 31) / 32 ∧ bitProp v v.length Wf := by
  intro n
  induction n with
  | zero =>
    intro i W hin hlen hP
    have hi : i = v.length := by omega
    subst hi
    exact ⟨W, by simp [bitLoopB], hlen, hP⟩
  | succ n ih =>
    intro i W hin hlen hP
    have hi : i < v.length := by omega
    have hread : readFlt (W.map Cell.i32 ++ (v.drop ((i + 31) / 32)).map Cell.flt) i
        = some (v.getD i 0) :=
      readFlt_mixed _ v _ i (by simp [hlen]) (by omega) hi
    by_cases hs : i % 32 = 0
    · -- word boundary: a fresh word is zeroed first
      have hm : (i + 31) / 32 = i / 32 := by omega
      rw [hm] at hlen hread ⊢
      have hw0 : writeCell (W.map Cell.i32 ++ (v.drop (i / 32)).map Cell.flt)
          (i / 32) (Cell.i32 0)
          = some ((W ++ [0]).map Cell.i32 ++ (v.drop (i / 32 + 1)).map Cell.flt) := by
        unfold writeCell
        rw [if_pos (by
          simp only [List.length_append, List.length_map, List.length_drop]
          omega)]
        congr 1
        rw [drop_cons_getD v 0 (i / 32) (by omega), List.map_cons,
          show i / 32 = (List.map Cell.i32 W).length from by simp [hlen], set_at_len]
        simp
      have hm1 : (i + 1 + 31) / 32 = i / 32 + 1 := by omega
      by_cases hx : v.getD i 0 = 0
      · -- zero entry at a word boundary
        have hPs : bitProp v (i + 1) (W ++ [0]) := by
          refine bitProp_snoc v i W 0 hs hlen hP ?_
          intro t
          rw [Nat.zero_testBit]
          constructor
          · intro h
            exact (Bool.false_ne_true h).elim
          · rintro ⟨_, h2⟩
            exact absurd hx h2
        obtain ⟨Wf, h1, h2, h3⟩ := ih (i + 1) (W ++ [0]) (by omega)
          (by simp only [List.length_append, List.length_cons, List.length_nil, hlen]; omega)
          hPs
        rw [hm1] at h1
        refine ⟨Wf, ?_, h2, h3⟩
        rw [bitLoopB_step_s0_zero n i _ _ _ _ hs hread hx hw0]
        exact h1
      · -- nonzero entry at a word boundary
        have hrc : readI32 ((W ++ [0]).map Cell.i32 ++ (v.drop (i / 32 + 1)).map Cell.flt)
            (i / 32) = some 0 := by
          unfold readI32
          rw [ge_append_lt _ _ _ (by simp [hlen]), ge_map,
            ge_getD (W ++ [0]) 0 (i / 32) (by simp [hlen]),
            show i / 32 = W.length from hlen.symm, getD_append_len, List.getD_cons_zero]
          rfl
        have hw : writeCell ((W ++ [0]).map Cell.i32 ++ (v.drop (i / 32 + 1)).map Cell.flt)
            (i / 32) (Cell.i32 (0 ||| 1 <<< (i % 32)))
            = some ((W ++ [0 ||| 1 <<< (i % 32)]).map Cell.i32
                ++ (v.drop (i / 32 + 1)).map Cell.flt) := by
          unfold writeCell
          rw [if_pos (by
            simp only [List.length_append, List.length_map, List.length_drop,
              List.length_cons, List.length_nil]
            omega)]
          congr 1
          rw [set_append_left _ _ _ _ (by simp [hlen]), ← map_set_comm,
            show i / 32 = W.length from hlen.symm, set_at_len]
        have ha : ∀ t : Nat, ((0 : Nat) ||| 1 <<< (i % 32)).testBit t = true
            ↔ t = 0 ∧ v.getD i 0 ≠ 0 := by
          intro t
          rw [hs, Nat.one_shiftLeft, Nat.zero_or, pow_zero]
          constructor
          · intro h
            have ht : t = 0 := by
              by_contra hne2
              rw [show (1 : Nat) = 2 ^ 0 from rfl,
                Nat.testBit_two_pow_of_ne (fun he => hne2 he.symm)] at h
              exact Bool.false_ne_true h
            exact ⟨ht, hx⟩
          · rintro ⟨ht, h2⟩
            subst ht
            decide
        have hPs : bitProp v (i + 1) (W ++ [0 ||| 1 <<< (i % 32)]) :=
          bitProp_snoc v i W _ hs hlen hP ha
        obtain ⟨Wf, h1, h2, h3⟩ := ih (i + 1) (W ++ [0 ||| 1 <<< (i % 32)]) (by omega)
          (by simp only [List.length_append, List.length_cons, List.length_nil, hlen]; omega)
          hPs
        rw [hm1] at h1
        refine ⟨Wf, ?_, h2, h3⟩
        rw [bitLoopB_step_s0_nz n i _ _ _ _ 0 _ hs hread hx hw0 hrc hw]
        exact h1
    · -- inside a word
      have hm2 : (i + 31) / 32 = i / 32 + 1 := by omega
      have hm3 : (i + 1 + 31) / 32 = (i + 31) / 32 := by omega
      by_cases hx : v.getD i 0 = 0
      · -- zero entry inside a word
        obtain ⟨Wf, h1, h2, h3⟩ := ih (i + 1) W (by omega) (by omega)
          (bitProp_keep v i W hP hx)
        rw [hm3] at h1
        refine ⟨Wf, ?_, h2, h3⟩
        rw [bitLoopB_step_sn_zero n i _ _ _ hs hread hx]
        exact h1
      · -- nonzero entry inside a word
        have hrc : readI32 (W.map Cell.i32 ++ (v.drop ((i + 31) / 32)).map Cell.flt)
            (i / 32) = some (W.getD (i / 32) 0) := by
          unfold readI32
          rw [ge_append_lt _ _ _ (by simp [hlen]; omega), ge_map,
            ge_getD W 0 (i / 32) (by omega)]
          rfl
        have hw : writeCell (W.map Cell.i32 ++ (v.drop ((i + 31) / 32)).map Cell.flt)
            (i / 32) (Cell.i32 ((W.getD (i / 32) 0) ||| 1 <<< (i % 32)))
            = some ((W.set (i / 32) ((W.getD (i / 32) 0) ||| 1 <<< (i % 32))).map Cell.i32
                ++ (v.drop ((i + 31) / 32)).map Cell.flt) := by
          unfold writeCell
          rw [if_pos (by
            simp only [List.length_append, List.length_map, List.length_drop]
            omega)]
          congr 1
          rw [set_append_left _ _ _ _ (by simp [hlen]; omega), ← map_set_comm]
        have hPo : bitProp v (i + 1)
            (W.set (i / 32) ((W.getD (i / 32) 0) ||| 1 <<< (i % 32))) :=
          bitProp_or v i W (by omega) hP hx
        obtain ⟨Wf, h1, h2, h3⟩ := ih (i + 1)
          (W.set (i / 32) ((W.getD (i / 32) 0) ||| 1 <<< (i % 32))) (by omega)
          (by rw [List.length_set]; omega) hPo
        rw [hm3] at h1
        refine ⟨Wf, ?_, h2, h3⟩
        rw [bitLoopB_step_sn_nz n i _ _ _ _ _ hs hread hx hrc hw]
        exact h1

/-- The two translations of the jaccard_sparse loop, build side and query
side, compute the same function. -/
theorem sparseLoop_QB (n : Nat) : ∀ (i : Nat) (buf : List Cell) (ne : Nat),
    sparseLoopQ n i buf ne = sparseLoopB n i buf ne := by
  induction n with
  | zero =>
    intro i buf ne
    rfl
  | succ n ih =>
    intro i buf ne
    unfold sparseLoopQ sparseLoopB
    cases readFlt buf i with
    | none => rfl
    | some x =>
      cases writeCell buf ne (Cell.i32 i) with
      | none => by_cases hx : x = 0 <;> simp [hx, ih]
      | some b2 => by_cases hx : x = 0 <;> simp [hx, ih]

/-- The two translations of the bit_jaccard loop, build side and query side,
compute the same function. -/
theorem bitLoop_QB (n : Nat) : ∀ (i : Nat) (buf : List Cell) (ne : Nat),
    bitLoopQ n i buf ne = bitLoopB n i buf ne := by
  induction n with
  | zero =>
    intro i buf ne
    rfl
  | succ n ih =>
    intro i buf ne
    unfold bitLoopQ bitLoopB
    cases readFlt buf i with
    | none => rfl
    | some elem =>
      by_cases hs : i % 32 = 0
      · rw [if_pos hs]
        cases writeCell buf (i / 32) (Cell.i32 0) with
        | none => rfl
        | some b =>
          simp only [Option.map_some']
          by_cases hx : elem = 0
          · simp [hx, ih]
          · rcases h1 : readI32 b (i / 32) with _ | cur
            · simp [hx, h1]
            · rcases h2 : writeCell b (i / 32) (Cell.i32 (cur ||| 1 <<< (i % 32))) with _ | b2
              · simp [hx, h1, h2]
              · simp [hx, h1, h2, ih]
      · rw [if_neg hs]
        by_cases hx : elem = 0
        · simp [hx, ih]
        · rcases h1 : readI32 buf (i / 32) with _ | cur
          · simp [hx, h1]
          · rcases h2 : writeCell buf (i / 32) (Cell.i32 (cur ||| 1 <<< (i % 32))) with _ | b2
            · simp [hx, h1, h2]
            · simp [hx, h1, h2, ih]

/-- The query-time encode computes exactly the build-time encode, space by
space and vector by vector. -/
theorem encodeVector_QB (s : String) (v : List Int) :
    encodeVectorQ s v = encodeVectorB s v := by
  unfold encodeVectorQ encodeVectorB
  rw [sparseLoop_QB, bitLoop_QB]

/-- The jaccard_sparse encode succeeds on every vector and yields the
nonzero indices compactly at the start of the buffer, followed by the
untouched float tail. -/
theorem sparse_encode_ok (v : List Int) :
    encodeVectorB "jaccard_sparse" v
      = .ok ((nzIndices v).map Cell.i32
          ++ (v.drop (nzIndices v).length).map Cell.flt, (nzIndices v).length) := by
  have h := sparse_go v v.length 0 0 [] (by omega) rfl (by omega)
  simp only [List.map_nil, List.nil_append, List.drop_zero, Nat.zero_add] at h
  unfold encodeVectorB
  rw [if_pos rfl]
  rw [h]
  rfl

/-- The bit_jaccard encode succeeds on every vector of dimension at least 2,
packing ceil(dim / 32) words recording the nonzero pattern and appending the
dimension word. -/
theorem bit_encode_ok (v : List Int) (h2 : 2 ≤ v.length) :
    ∃ W : List Nat,
      encodeVectorB "bit_jaccard" v
        = .ok ((W ++ [v.length % 2 ^ 32]).map Cell.i32
            ++ (v.drop ((v.length + 31) / 32 + 1)).map Cell.flt,
            (v.length + 31) / 32 + 1)
      ∧ W.length = (v.length + 31) / 32 ∧ bitProp v v.length W := by
  obtain ⟨W, h1, hlen, hP⟩ := bit_go v v.length 0 [] (by omega) rfl
    (by
      intro j s hj
      simp at hj)
  simp only [show ((0 : Nat) + 31) / 32 = 0 from rfl, List.map_nil, List.nil_append,
    List.drop_zero] at h1
  have hw : writeCell (W.map Cell.i32 ++ (v.drop ((v.length + 31) / 32)).map Cell.flt)
      ((v.length + 31) / 32) (Cell.i32 (v.length % 2 ^ 32))
      = some ((W ++ [v.length % 2 ^ 32]).map Cell.i32
          ++ (v.drop ((v.length + 31) / 32 + 1)).map Cell.flt) := by
    unfold writeCell
    rw [if_pos (by
      simp only [List.length_append, List.length_map, List.length_drop]
      omega)]
    congr 1
    rw [drop_cons_getD v 0 ((v.length + 31) / 32) (by omega), List.map_cons,
      show (v.length + 31) / 32 = (List.map Cell.i32 W).length from by simp [hlen],
      set_at_len]
    simp
  refine ⟨W, ?_, hlen, hP⟩
  unfold encodeVectorB
  rw [if_neg (by decide), if_pos rfl, if_neg (by omega)]
  rw [h1]
  simp only [hw]

/-- The bit_jaccard encode fails with the dimension error on every vector of
dimension 0 or 1. -/
theorem bit_encode_fail (v : List Int) (h : v.length < 2) :
    encodeVectorB "bit_jaccard" v = .error .dimLt2 := by
  unfold encodeVectorB
  rw [if_neg (by decide), if_pos rfl, if_pos h]

/-- The dense encode leaves the buffer unchanged with numElems = dim. -/
theorem dense_encode_ok (s : String) (v : List Int)
    (h1 : s ≠ "jaccard_sparse") (h2 : s ≠ "bit_jaccard") :
    encodeVectorB s v = .ok (v.map Cell.flt, v.length) := by
  unfold encodeVectorB
  rw [if_neg h1, if_neg h2]

/-- Folding append of singletons over a list reproduces the list. -/
theorem foldl_append_singleton (l : List Nat) : ∀ acc : List Nat,
    l.foldl (fun a t => a ++ [t]) acc = acc ++ l := by
  induction l with
  | nil =>
    intro acc
    simp
  | cons x xs ih =>
    intro acc
    simp [ih]

/-- The entry release loop deletes exactly the created entries, in creation
order. -/
theorem deleteEntries_eq (l : List Nat) : deleteEntries l = l := by
  unfold deleteEntries
  simpa using foldl_append_singleton l []

/-- Draining the descending queue by repeated TopDistance and Pop reproduces
the queue content in its descending order. -/
theorem drainLoop_eq (q : List (Int × Int)) : drainLoop q.length q = q := by
  induction q with
  | nil => rfl
  | cons e t ih => simp [drainLoop, topDistance, popId, ih]

/-- Membership characterization of nzIndices. -/
theorem nzIndices_mem (v : List Int) (i : Nat) :
    i ∈ nzIndices v ↔ i < v.length ∧ v.getD i 0 ≠ 0 := by
  unfold nzIndices
  rw [nzFrom_mem v 0 i]
  constructor
  · rintro ⟨j, hj, hij, hnz⟩
    refine ⟨by omega, ?_⟩
    rw [show i = j from by omega]
    exact hnz
  · rintro ⟨h1, h2⟩
    exact ⟨i, h1, by omega, h2⟩

/-! Claim theorems. -/

/-- Claim C2: whether CreateIndex fails during per-vector processing on an
inconsistent-dimension vector or a bit_jaccard constraint violation, fails
during native index construction or saving, or succeeds, every dataset entry
created is released exactly once, in creation order, before the call
returns. -/
theorem claim_C2_create_releases_entries (ids : List Int) (vectors : List (List Int))
    (spaceTypeRaw : String) (buildFail saveFail : Bool) :
    (CreateIndex ids vectors spaceTypeRaw buildFail saveFail).entriesReleased
      = (CreateIndex ids vectors spaceTypeRaw buildFail saveFail).entriesCreated := by
  unfold CreateIndex
  rcases TranslateSpaceType spaceTypeRaw with e | st
  · rfl
  · rcases hd : datasetLoop st (innerDim vectors) vectors 0 [] [] []
      with ⟨created, pin, rel, me⟩
    by_cases hc : ids.length ≠ vectors.length
    · simp [hc]
    · cases me with
      | some e2 => simp [hc, hd, deleteEntries_eq]
      | none => cases buildFail <;> cases saveFail <;> simp [hc, hd, deleteEntries_eq]

/-- Concrete instance of claim C2. -/
theorem claim_C2_witness :
    (CreateIndex [1, 2] [[1], [2]] "l2" false false).entriesReleased
      = (CreateIndex [1, 2] [[1], [2]] "l2" false false).entriesCreated :=
  claim_C2_create_releases_entries [1, 2] [[1], [2]] "l2" false false

/-- Claim C3: whenever LoadIndex fails, during space construction, method
construction, loading the persisted index, or applying the query-time
parameters, every native object created for the partially-built handle has
been released, as a multiset, when the error propagates. -/
theorem claim_C3_load_releases_all (spaceFail methodFail loadFail paramsFail : Bool)
    (e : LoadErr)
    (h : (LoadIndex spaceFail methodFail loadFail paramsFail).outcome = .error e) :
    (LoadIndex spaceFail methodFail loadFail paramsFail).released.Perm
      (LoadIndex spaceFail methodFail loadFail paramsFail).created := by
  cases spaceFail <;> cases methodFail <;> cases loadFail <;> cases paramsFail <;>
    simp_all [LoadIndex, wrapperCtor, wrapperDtor, Ledger.alloc, Ledger.dealloc] <;>
    decide

/-- Concrete instance of claim C3: a failure of index loading releases the
index and then the space. -/
theorem claim_C3_witness :
    (LoadIndex false false true false).released.Perm
      (LoadIndex false false true false).created :=
  claim_C3_load_releases_all false false true false .loadFail rfl

/-- Claim C4, failing input: for the bit_jaccard space and a query vector of
dimension 1, QueryIndex raises the dimension error of source line 238 after
acquiring the pinned buffer at line 225 but outside any try block, so
ReleaseFloatArrayElements is never invoked on this path and the acquired
buffer is not released, contradicting the claim and the source comment at
line 225 (Have to call release on this).  The query-object construction
failure path, by contrast, does release the buffer, as the last two
conjuncts record. -/
theorem claim_C4_dim_check_leaks_buffer :
    (QueryIndex "bit_jaccard" [] false [3] 5).outcome = .error (.encFail .dimLt2)
    ∧ (QueryIndex "bit_jaccard" [] false [3] 5).bufReleased = false
    ∧ (QueryIndex "bit_jaccard" [] true [3, 4] 5).outcome = .error .objCtorFail
    ∧ (QueryIndex "bit_jaccard" [] true [3, 4] 5).bufReleased = true :=
  ⟨rfl, rfl, rfl, rfl⟩

/-- Claim C5: for bit_jaccard with dimension D at least 2, encoding (build
and query alike) packs bit i = (input at i nonzero) into 32-bit words, least
significant bit first, ceil(D / 32) of them, followed by one trailing word
holding D, total output length ceil(D / 32) + 1 words; for D below 2 the
encoding fails.  The hypothesis D < 2 ^ 32 reflects the jsize bound on a
Java array length and makes the uint32_t cast of the trailing word the
identity. -/
theorem claim_C5_bit_encoding (v : List Int) :
    (2 ≤ v.length → v.length < 2 ^ 32 →
      ∃ W : List Nat,
        encodeVectorB "bit_jaccard" v
          = .ok ((W ++ [v.length]).map Cell.i32
              ++ (v.drop ((v.length + 31) / 32 + 1)).map Cell.flt,
              (v.length + 31) / 32 + 1)
        ∧ encodeVectorQ "bit_jaccard" v = encodeVectorB "bit_jaccard" v
        ∧ W.length = (v.length + 31) / 32
        ∧ (∀ j s : Nat, j < W.length →
            ((W.getD j 0).testBit s = true
              ↔ 32 * j + s < v.length ∧ s < 32 ∧ v.getD (32 * j + s) 0 ≠ 0)))
    ∧ (v.length < 2 →
        encodeVectorB "bit_jaccard" v = .error EncErr.dimLt2
        ∧ encodeVectorQ "bit_jaccard" v = .error EncErr.dimLt2) := by
  constructor
  · intro h2 h32
    obtain ⟨W, h1, hlen, hP⟩ := bit_encode_ok v h2
    rw [Nat.mod_eq_of_lt h32] at h1
    exact ⟨W, h1, encodeVector_QB _ v, hlen, fun j s hj => hP j s hj⟩
  · intro h
    refine ⟨bit_encode_fail v h, ?_⟩
    rw [encodeVector_QB]
    exact bit_encode_fail v h

/-- Concrete instance of claim C5 at v = [1, 0, 1] (word 5, trailing word 3)
and at the dimension-1 vector [5], which is rejected. -/
theorem claim_C5_witness :
    (∃ W : List Nat,
      encodeVectorB "bit_jaccard" [1, 0, 1]
        = .ok ((W ++ [3]).map Cell.i32 ++ (([1, 0, 1] : List Int).drop 2).map Cell.flt, 2)
      ∧ encodeVectorQ "bit_jaccard" [1, 0, 1] = encodeVectorB "bit_jaccard" [1, 0, 1]
      ∧ W.length = 1
      ∧ (∀ j s : Nat, j < W.length →
          ((W.getD j 0).testBit s = true
            ↔ 32 * j + s < 3 ∧ s < 32 ∧ ([1, 0, 1] : List Int).getD (32 * j + s) 0 ≠ 0)))
    ∧ (encodeVectorB "bit_jaccard" [(5 : Int)] = .error EncErr.dimLt2
      ∧ encodeVectorQ "bit_jaccard" [(5 : Int)] = .error EncErr.dimLt2) :=
  ⟨(claim_C5_bit_encoding [1, 0, 1]).1 (by decide) (by decide),
    (claim_C5_bit_encoding [5]).2 (by decide)⟩

/-- Claim C6: for the jaccard_sparse space type, encoding a vector of
dimension D, at build time and at query time alike, produces exactly the
indices i below D at which the input is nonzero, as 32-bit integers in
ascending order written compactly from offset 0, and the output length is
the number of nonzero entries, possibly zero. -/
theorem claim_C6_sparse_encoding (v : List Int) :
    encodeVectorB "jaccard_sparse" v
      = .ok ((nzIndices v).map Cell.i32
          ++ (v.drop (nzIndices v).length).map Cell.flt, (nzIndices v).length)
    ∧ encodeVectorQ "jaccard_sparse" v = encodeVectorB "jaccard_sparse" v
    ∧ (nzIndices v).length ≤ v.length
    ∧ List.Chain' (fun a c : Nat => a < c) (nzIndices v)
    ∧ (∀ i : Nat, i ∈ nzIndices v ↔ i < v.length ∧ v.getD i 0 ≠ 0) :=
  ⟨sparse_encode_ok v, encodeVector_QB _ v, nzFrom_length_le v 0, nzFrom_sorted v 0,
    nzIndices_mem v⟩

/-- Concrete instance of claim C6 at v = [2, 0, -3, 0]. -/
theorem claim_C6_witness :
    encodeVectorB "jaccard_sparse" [2, 0, -3, 0]
      = .ok ((nzIndices [2, 0, -3, 0]).map Cell.i32
          ++ (([2, 0, -3, 0] : List Int).drop (nzIndices [2, 0, -3, 0]).length).map Cell.flt,
          (nzIndices [2, 0, -3, 0]).length)
    ∧ encodeVectorQ "jaccard_sparse" [2, 0, -3, 0]
        = encodeVectorB "jaccard_sparse" [2, 0, -3, 0]
    ∧ (nzIndices [2, 0, -3, 0]).length ≤ ([2, 0, -3, 0] : List Int).length
    ∧ List.Chain' (fun a c : Nat => a < c) (nzIndices [2, 0, -3, 0])
    ∧ (∀ i : Nat, i ∈ nzIndices [2, 0, -3, 0]
        ↔ i < ([2, 0, -3, 0] : List Int).length ∧ ([2, 0, -3, 0] : List Int).getD i 0 ≠ 0) :=
  claim_C6_sparse_encoding [2, 0, -3, 0]

/-- Claim C7: the encoders never perform an access outside the pinned
buffer: the model fails with memUnsafe on any out-of-bounds access or read
through the wrong view, and no space type ever produces that failure; every
successful encode emits numElems at most D within a buffer that still has
exactly D cells; and for bit_jaccard with D at least 2 the emitted length is
exactly ceil(D / 32) + 1, which is at most D, licensing the in-place
encode. -/
theorem claim_C7_in_place_safety (s : String) (v : List Int) :
    encodeVectorB s v ≠ .error EncErr.memUnsafe
    ∧ (∀ buf : List Cell, ∀ ne : Nat, encodeVectorB s v = .ok (buf, ne) →
        ne ≤ v.length ∧ buf.length = v.length)
    ∧ (2 ≤ v.length →
        (v.length + 31) / 32 + 1 ≤ v.length
        ∧ ∀ buf : List Cell, ∀ ne : Nat,
            encodeVectorB "bit_jaccard" v = .ok (buf, ne) →
            ne = (v.length + 31) / 32 + 1) := by
  have hbit : 2 ≤ v.length →
      (v.length + 31) / 32 + 1 ≤ v.length
      ∧ ∀ buf : List Cell, ∀ ne : Nat,
          encodeVectorB "bit_jaccard" v = .ok (buf, ne) →
          ne = (v.length + 31) / 32 + 1 := by
    intro h2
    refine ⟨by omega, ?_⟩
    intro buf ne h
    obtain ⟨W, h1, hlen, hP⟩ := bit_encode_ok v h2
    rw [h1] at h
    simp only [Except.ok.injEq, Prod.mk.injEq] at h
    omega
  by_cases hs1 : s = "jaccard_sparse"
  · subst hs1
    refine ⟨?_, ?_, hbit⟩
    · rw [sparse_encode_ok v]
      simp
    · intro buf ne h
      rw [sparse_encode_ok v] at h
      simp only [Except.ok.injEq, Prod.mk.injEq] at h
      obtain ⟨hbuf, hne⟩ := h
      have hz : (nzIndices v).length ≤ v.length := nzFrom_length_le v 0
      constructor
      · omega
      · rw [← hbuf]
        simp only [List.length_append, List.length_map, List.length_drop]
        omega
  · by_cases hs2 : s = "bit_jaccard"
    · subst hs2
      by_cases h2 : 2 ≤ v.length
      · obtain ⟨W, h1, hlen, hP⟩ := bit_encode_ok v h2
        refine ⟨?_, ?_, hbit⟩
        · rw [h1]
          simp
        · intro buf ne h
          rw [h1] at h
          simp only [Except.ok.injEq, Prod.mk.injEq] at h
          obtain ⟨hbuf, hne⟩ := h
          constructor
          · omega
          · rw [← hbuf]
            simp only [List.length_append, List.length_map, List.length_drop,
              List.length_cons, List.length_nil]
            omega
      · have hf := bit_encode_fail v (by omega)
        refine ⟨?_, ?_, hbit⟩
        · rw [hf]
          simp
        · intro buf ne h
          rw [hf] at h
          cases h
    · refine ⟨?_, ?_, hbit⟩
      · rw [dense_encode_ok s v hs1 hs2]
        simp
      · intro buf ne h
        rw [dense_encode_ok s v hs1 hs2] at h
        simp only [Except.ok.injEq, Prod.mk.injEq] at h
        obtain ⟨hbuf, hne⟩ := h
        constructor
        · omega
        · rw [← hbuf]
          simp

/-- Concrete instance of claim C7 at bit_jaccard and v = [1, 1]: the encode
emits 2 words into a 2-cell buffer. -/
theorem claim_C7_witness :
    encodeVectorB "bit_jaccard" [1, 1] ≠ .error EncErr.memUnsafe
    ∧ ((2 : Nat) ≤ 2 ∧ ([Cell.i32 3, Cell.i32 2] : List Cell).length = 2)
    ∧ (2 : Nat) ≤ 2 :=
  ⟨(claim_C7_in_place_safety "bit_jaccard" [1, 1]).1,
    (claim_C7_in_place_safety "bit_jaccard" [1, 1]).2.1 [Cell.i32 3, Cell.i32 2] 2 rfl,
    ((claim_C7_in_place_safety "bit_jaccard" [1, 1]).2.2 (by decide)).1⟩

/-- Claim C8: the query-time encoding performed by QueryIndex is
extensionally equal to the build-time encoding performed by CreateIndex:
for every space type and every raw vector both code paths produce the same
encoded buffer contents and the same encoded length. -/
theorem claim_C8_encode_refinement (s : String) (v : List Int) :
    encodeVectorQ s v = encodeVectorB s v :=
  encodeVector_QB s v

/-- Concrete instance of claim C8. -/
theorem claim_C8_witness :
    encodeVectorQ "jaccard_sparse" [0, 7] = encodeVectorB "jaccard_sparse" [0, 7] :=
  claim_C8_encode_refinement "jaccard_sparse" [0, 7]

/-- Claim C9, failing input: CreateIndex with matching id and vector counts,
space bit_jaccard, and a first vector of dimension 1.  The id-count check of
lines 90-94 does run before anything is pinned or any dataset entry exists,
and the first group of conjuncts shows that part of the claim at a
count-mismatch input; but the bit_jaccard dimension check of line 125 fires
only after GetFloatArrayElements (line 113) pinned the float buffer of
vector 0, and the throw of line 126 escapes to the catch of lines 158-165,
which deletes dataset entries and releases idsCpp but never the pinned
float buffer: a native allocation is left behind, contradicting the
no-partial-allocation conjunct of the claim.  The last group of conjuncts
contrasts a well-formed bit_jaccard build, where every pinned buffer is
released. -/
theorem claim_C9_bitjaccard_buffer_leak :
    ((CreateIndex [1] [] "l2" false false).outcome = .error .idCountMismatch
      ∧ (CreateIndex [1] [] "l2" false false).entriesCreated = []
      ∧ (CreateIndex [1] [] "l2" false false).buffersAcquired = [])
    ∧ ((CreateIndex [7] [[3]] "bit_jaccard" false false).outcome
          = .error (.encFail .dimLt2)
      ∧ (CreateIndex [7] [[3]] "bit_jaccard" false false).entriesCreated = []
      ∧ (CreateIndex [7] [[3]] "bit_jaccard" false false).buffersAcquired = [0]
      ∧ (CreateIndex [7] [[3]] "bit_jaccard" false false).buffersReleased = [])
    ∧ ((CreateIndex [7] [[3, 4]] "bit_jaccard" false false).outcome = .ok ()
      ∧ (CreateIndex [7] [[3, 4]] "bit_jaccard" false false).buffersAcquired = [0]
      ∧ (CreateIndex [7] [[3, 4]] "bit_jaccard" false false).buffersReleased = [0]) :=
  ⟨⟨rfl, rfl, rfl⟩, ⟨rfl, rfl, rfl, rfl⟩, ⟨rfl, rfl, rfl⟩⟩

/-- Claim C10: on the successful paths, CreateIndex and QueryIndex leave the
caller-visible Java arrays observably unchanged: the in-place encodings only
modify the pinned native copies, and every release in the source uses
JNI_ABORT, which discards those modifications instead of copying them
back. -/
theorem claim_C10_inputs_unchanged :
    (∀ (ids : List Int) (vectors : List (List Int)) (s : String) (bf sf : Bool),
      (CreateIndex ids vectors s bf sf).outcome = .ok () →
        (CreateIndex ids vectors s bf sf).javaVectors = vectors
        ∧ (CreateIndex ids vectors s bf sf).javaIds = ids)
    ∧ (∀ (d : String) (q : List (Int × Int)) (f : Bool) (jq : List Int) (k : Nat)
        (rs : List (Int × Int)),
      (QueryIndex d q f jq k).outcome = .ok rs →
        (QueryIndex d q f jq k).javaQuery = jq) := by
  constructor
  · intro ids vectors s bf sf _h
    unfold CreateIndex
    rcases TranslateSpaceType s with e | st
    · exact ⟨rfl, rfl⟩
    · rcases hd : datasetLoop st (innerDim vectors) vectors 0 [] [] []
        with ⟨created, pin, rel, me⟩
      by_cases hc : ids.length ≠ vectors.length
      · constructor <;> simp [hc]
      · cases me with
        | some e2 => constructor <;> simp [hc, hd]
        | none => cases bf <;> cases sf <;> constructor <;> simp [hc, hd]
  · intro d q f jq k rs _h
    unfold QueryIndex
    rcases encodeVectorQ d jq with e | r
    · rfl
    · cases f <;> rfl

/-- Concrete instance of claim C10 on a successful build and a successful
query. -/
theorem claim_C10_witness :
    ((CreateIndex [1] [[2]] "l2" false false).javaVectors = [[2]]
      ∧ (CreateIndex [1] [[2]] "l2" false false).javaIds = [1])
    ∧ (QueryIndex "l2" [] false [3] 1).javaQuery = [3] :=
  ⟨claim_C10_inputs_unchanged.1 [1] [[2]] "l2" false false rfl,
    claim_C10_inputs_unchanged.2 "l2" [] false [3] 1 [] rfl⟩

/-- Claim C1 counterexample: with the backend queue holding two candidates
at distances 5 and 3, in the descending order of the cloned top-k queue, and
k = 2, QueryIndex stores the pops in order at positions 0 and 1, so the
returned list carries distance 5 before distance 3: it is not ordered
ascending by distance, and its first element is the farthest, not the
nearest. -/
theorem claim_C1_counterexample :
    (QueryIndex "l2" [(10, 5), (20, 3)] false [1, 2] 2).outcome
        = .ok [(10, 5), (20, 3)]
    ∧ ¬ List.Chain' (fun a b : Int × Int => a.2 ≤ b.2) [((10 : Int), (5 : Int)), (20, 3)] := by
  refine ⟨rfl, ?_⟩
  intro h
  have h1 : (5 : Int) ≤ 3 := (List.chain'_cons.1 h).1
  omega

/-- Claim C1 amended: every successful QueryIndex call returns exactly
min(k, candidate count) results, and under the backend queue contract, at
most k candidates, clone sorted by descending distance, the returned list is
the drained queue itself: ordered by nonincreasing distance, farthest first
and nearest last. -/
theorem claim_C1_amended_query_results (spaceDesc : String) (queue : List (Int × Int))
    (objFail : Bool) (javaQuery : List Int) (k : Nat) (rs : List (Int × Int))
    (hdesc : List.Chain' (fun a b : Int × Int => b.2 ≤ a.2) queue)
    (hk : queue.length ≤ k)
    (hok : (QueryIndex spaceDesc queue objFail javaQuery k).outcome = .ok rs) :
    rs.length = min k queue.length
    ∧ List.Chain' (fun a b : Int × Int => b.2 ≤ a.2) rs
    ∧ rs = queue := by
  unfold QueryIndex at hok
  cases he : encodeVectorQ spaceDesc javaQuery with
  | error e =>
    rw [he] at hok
    simp at hok
  | ok r =>
    rw [he] at hok
    cases objFail with
    | true => simp at hok
    | false =>
      have hok2 : drainLoop queue.length queue = rs := by simpa using hok
      rw [drainLoop_eq] at hok2
      subst hok2
      exact ⟨(Nat.min_eq_right hk).symm, hdesc, rfl⟩

/-- Concrete instance of the amended claim C1. -/
theorem claim_C1_amended_witness :
    ([((7 : Int), (9 : Int)), (8, 4)].length = min 3 2
      ∧ List.Chain' (fun a b : Int × Int => b.2 ≤ a.2) [((7 : Int), (9 : Int)), (8, 4)]
      ∧ [((7 : Int), (9 : Int)), (8, 4)] = [((7 : Int), (9 : Int)), (8, 4)]) :=
  claim_C1_amended_query_results "l2" [(7, 9), (8, 4)] false [1] 3 [(7, 9), (8, 4)]
    (List.chain'_cons.2 ⟨by omega, List.chain'_singleton _⟩) (by decide) rfl

end NmslibWrapper
